import Mathlib

/-!
# Verification of the MPES hybrid-retrieval chatbot

A shallow embedding, in Lean 4, of the core algorithms of the repository:
reciprocal rank fusion (`_reciprocal_rank_fusion` in `src/backend/chatbot.py`
and `projeto/src/chatbot.py`), the BM25 textual search
(`_executar_busca_textual` in `projeto/src/chatbot.py`), incremental
re-chunking (`split_text_into_blocks` in `src/backend/text_processing.py`),
the embedding generation pass and its retry and stagnation logic
(`src/backend/embedding_generation.py`), and the oversized-chunk re-splitting
of the sync pipeline (`projeto/src/etl.py`).

Python floats are modelled as `ℚ`; the RRF arithmetic (sums of `1/(k+rank+1)`)
and the comparisons the code performs are exact in this range.
-/

namespace Chatbot

/-- A retrieval result record as built by `_format_chroma_results` /
`_executar_busca_textual`: keys `_id`, `texto`, `fonte_documento`, `score`. -/
structure RetrievalDoc where
  docId : String
  texto : String
  fonte_documento : String
  score : ℚ
  deriving DecidableEq, Repr

/-- One value of the Python dict `ranked_results` in `_reciprocal_rank_fusion`:
`{"score": ..., "doc": ...}`. -/
structure RankedEntry where
  score : ℚ
  doc : RetrievalDoc
  deriving DecidableEq, Repr

/-- The dict update performed for one `result` at contribution `contrib`:
`if doc_id not in ranked_results: ranked_results[doc_id] = {"score": 0.0, "doc": result}`
then `ranked_results[doc_id]["score"] += contrib`.  The dict is modelled as an
insertion-ordered association list with (by construction) unique keys: the
first entry with the matching key is updated in place, a missing key is
appended at the end, exactly as a Python dict behaves. -/
def rrfInsert (result : RetrievalDoc) (contrib : ℚ) :
    List (String × RankedEntry) → List (String × RankedEntry)
  | [] => [(result.docId, ⟨contrib, result⟩)]
  | p :: ps =>
    if p.1 = result.docId then (p.1, ⟨p.2.score + contrib, p.2.doc⟩) :: ps
    else p :: rrfInsert result contrib ps

/-- The inner loop `for rank, result in enumerate(results)` of
`_reciprocal_rank_fusion`, starting at zero-based `rank`; each member
contributes `1.0 / (k + rank + 1)`. -/
def rrfAddList (k : ℚ) : List (String × RankedEntry) → Nat → List RetrievalDoc →
    List (String × RankedEntry)
  | acc, _, [] => acc
  | acc, rank, r :: rs =>
    rrfAddList k (rrfInsert r (1 / (k + (rank : ℚ) + 1)) acc) (rank + 1) rs

/-- The outer loop `for results in results_lists` of `_reciprocal_rank_fusion`. -/
def rrfAccumulate (k : ℚ) (results_lists : List (List RetrievalDoc)) :
    List (String × RankedEntry) :=
  results_lists.foldl (fun acc results => rrfAddList k acc 0 results) []

/-- `sorted(ranked_results.values(), key=lambda x: x["score"], reverse=True)`:
a stable sort by score descending.  Python's stable sort produces the unique
output that is sorted by the key and preserves the input order of ties, which
is exactly `List.insertionSort` under the relation `y.score ≤ x.score`. -/
def sortByScoreDesc (l : List RankedEntry) : List RankedEntry :=
  l.insertionSort (fun x y => y.score ≤ x.score)

/-- The untruncated result of `_reciprocal_rank_fusion`: the dict values in
insertion order, stably sorted by score descending, projected to their
`"doc"` field. -/
def rrfFull (results_lists : List (List RetrievalDoc)) (k : ℚ) : List RetrievalDoc :=
  (sortByScoreDesc ((rrfAccumulate k results_lists).map Prod.snd)).map RankedEntry.doc

/-- `_reciprocal_rank_fusion(results_lists, final_k, k=60)` from
`src/backend/chatbot.py` (lines 138-149) and `projeto/src/chatbot.py`
(lines 211-222): `return final_list[:final_k]`. -/
def reciprocal_rank_fusion (results_lists : List (List RetrievalDoc)) (final_k : Nat)
    (k : ℚ := 60) : List RetrievalDoc :=
  (rrfFull results_lists k).take final_k

/-- The contribution of one ranked list to the fused score of id `id`,
starting from zero-based position `rank`: each occurrence of `id` at
position `r` contributes `1 / (k + r + 1)`. -/
def listContrib (k : ℚ) : Nat → List RetrievalDoc → String → ℚ
  | _, [], _ => 0
  | rank, r :: rs, id =>
    (if r.docId = id then 1 / (k + (rank : ℚ) + 1) else 0) + listContrib k (rank + 1) rs id

/-- The total fused (reciprocal-rank-fusion) score of id `id`: the sum over
all input lists of the per-list contributions. -/
def rrfScore (k : ℚ) (results_lists : List (List RetrievalDoc)) (id : String) : ℚ :=
  (results_lists.map (fun results => listContrib k 0 results id)).sum

/-- The score that an association-list state assigns to id `id` (sum over all
entries keyed by `id`; with unique keys this is the single entry's score, and
0 when absent). -/
def keyScore (acc : List (String × RankedEntry)) (id : String) : ℚ :=
  (acc.map (fun p => if p.1 = id then p.2.score else 0)).sum

end Chatbot

namespace Chatbot


theorem keyScore_nil (id : String) : keyScore [] id = 0 := rfl

theorem keyScore_cons (p : String × RankedEntry) (ps : List (String × RankedEntry)) (id : String) :
    keyScore (p :: ps) id = (if p.1 = id then p.2.score else 0) + keyScore ps id := rfl

theorem rrfInsert_keyScore (r : RetrievalDoc) (c : ℚ) (acc : List (String × RankedEntry))
    (id : String) :
    keyScore (rrfInsert r c acc) id = keyScore acc id + (if r.docId = id then c else 0) := by
  induction acc with
  | nil => by_cases h : r.docId = id <;> simp [rrfInsert, keyScore, h]
  | cons p ps ih =>
    by_cases hp : p.1 = r.docId
    · by_cases hid : r.docId = id
      · simp [rrfInsert, hp, keyScore_cons, hp.trans hid, hid]; ring
      · have : ¬ p.1 = id := fun h => hid (hp ▸ h)
        simp [rrfInsert, hp, keyScore_cons, this, hid]
    · simp [rrfInsert, hp, keyScore_cons, ih]; ring

theorem rrfInsert_keys (r : RetrievalDoc) (c : ℚ) (acc : List (String × RankedEntry)) :
    (rrfInsert r c acc).map Prod.fst =
      if r.docId ∈ acc.map Prod.fst then acc.map Prod.fst
      else acc.map Prod.fst ++ [r.docId] := by
  induction acc with
  | nil => simp [rrfInsert]
  | cons p ps ih =>
    by_cases hp : p.1 = r.docId
    · simp [rrfInsert, hp]
    · have : ¬ r.docId = p.1 := fun h => hp h.symm
      by_cases hm : r.docId ∈ ps.map Prod.fst <;>
        simp [rrfInsert, hp, ih, hm, this]



theorem rrfInsert_mem_keys (r : RetrievalDoc) (c : ℚ) (acc : List (String × RankedEntry))
    (id : String) :
    id ∈ (rrfInsert r c acc).map Prod.fst ↔ id = r.docId ∨ id ∈ acc.map Prod.fst := by
  rw [rrfInsert_keys]
  by_cases hm : r.docId ∈ acc.map Prod.fst
  · simp only [hm, if_pos]
    constructor
    · exact Or.inr
    · rintro (rfl | h) <;> [exact hm; exact h]
  · simp [hm, or_comm]

theorem rrfInsert_nodup (r : RetrievalDoc) (c : ℚ) (acc : List (String × RankedEntry))
    (h : (acc.map Prod.fst).Nodup) : ((rrfInsert r c acc).map Prod.fst).Nodup := by
  rw [rrfInsert_keys]
  by_cases hm : r.docId ∈ acc.map Prod.fst
  · simpa [hm] using h
  · simp only [hm, if_neg, not_false_iff]
    simp [List.nodup_append, h, hm]

theorem rrfInsert_docs (r : RetrievalDoc) (c : ℚ) (acc : List (String × RankedEntry))
    (q : String × RankedEntry) (hq : q ∈ rrfInsert r c acc) :
    q.2.doc = r ∨ ∃ p ∈ acc, q.2.doc = p.2.doc := by
  induction acc with
  | nil => simp [rrfInsert] at hq; simp [hq]
  | cons p ps ih =>
    by_cases hp : p.1 = r.docId
    · simp only [rrfInsert, hp, if_pos, List.mem_cons] at hq
      rcases hq with rfl | hq
      · exact Or.inr ⟨p, List.mem_cons_self p ps, rfl⟩
      · exact Or.inr ⟨q, List.mem_cons_of_mem p hq, rfl⟩
    · simp only [rrfInsert, hp, if_neg, not_false_iff, List.mem_cons] at hq
      rcases hq with rfl | hq
      · exact Or.inr ⟨q, List.mem_cons_self q ps, rfl⟩
      · rcases ih hq with h | ⟨p', hp', h⟩
        · exact Or.inl h
        · exact Or.inr ⟨p', List.mem_cons_of_mem p hp', h⟩

theorem rrfInsert_keyId (r : RetrievalDoc) (c : ℚ) (acc : List (String × RankedEntry))
    (h : ∀ p ∈ acc, p.1 = p.2.doc.docId) :
    ∀ p ∈ rrfInsert r c acc, p.1 = p.2.doc.docId := by
  induction acc with
  | nil => simp [rrfInsert]
  | cons p ps ih =>
    intro q hq
    by_cases hp : p.1 = r.docId
    · simp only [rrfInsert, hp, if_pos, List.mem_cons] at hq
      rcases hq with rfl | hq
      · exact hp ▸ h p (List.mem_cons_self p ps)
      · exact h q (List.mem_cons_of_mem p hq)
    · simp only [rrfInsert, hp, if_neg, not_false_iff, List.mem_cons] at hq
      rcases hq with rfl | hq
      · exact h q (List.mem_cons_self q ps)
      · exact ih (fun p' hp' => h p' (List.mem_cons_of_mem p hp')) q hq



theorem rrfAddList_keyScore (k : ℚ) (L : List RetrievalDoc) :
    ∀ (acc : List (String × RankedEntry)) (rank : Nat) (id : String),
      keyScore (rrfAddList k acc rank L) id = keyScore acc id + listContrib k rank L id := by
  induction L with
  | nil => intro acc rank id; simp [rrfAddList, listContrib]
  | cons r rs ih =>
    intro acc rank id
    simp only [rrfAddList, listContrib, ih, rrfInsert_keyScore]
    ring

theorem rrfAddList_mem_keys (k : ℚ) (L : List RetrievalDoc) :
    ∀ (acc : List (String × RankedEntry)) (rank : Nat) (id : String),
      id ∈ (rrfAddList k acc rank L).map Prod.fst ↔
        id ∈ acc.map Prod.fst ∨ ∃ r ∈ L, r.docId = id := by
  induction L with
  | nil => intro acc rank id; simp [rrfAddList]
  | cons r rs ih =>
    intro acc rank id
    simp only [rrfAddList, ih, rrfInsert_mem_keys, List.mem_cons]
    constructor
    · rintro ((rfl | h) | ⟨r', hr', rfl⟩)
      · exact Or.inr ⟨r, Or.inl rfl, rfl⟩
      · exact Or.inl h
      · exact Or.inr ⟨r', Or.inr hr', rfl⟩
    · rintro (h | ⟨r', (rfl | hr'), rfl⟩)
      · exact Or.inl (Or.inr h)
      · exact Or.inl (Or.inl rfl)
      · exact Or.inr ⟨r', hr', rfl⟩

theorem rrfAddList_nodup (k : ℚ) (L : List RetrievalDoc) :
    ∀ (acc : List (String × RankedEntry)) (rank : Nat),
      (acc.map Prod.fst).Nodup → ((rrfAddList k acc rank L).map Prod.fst).Nodup := by
  induction L with
  | nil => intro acc rank h; simpa [rrfAddList] using h
  | cons r rs ih =>
    intro acc rank h
    exact ih _ _ (rrfInsert_nodup _ _ _ h)

theorem rrfAddList_docs (k : ℚ) (L : List RetrievalDoc) :
    ∀ (acc : List (String × RankedEntry)) (rank : Nat),
      ∀ q ∈ rrfAddList k acc rank L, (∃ p ∈ acc, q.2.doc = p.2.doc) ∨ q.2.doc ∈ L := by
  induction L with
  | nil => intro acc rank q hq; exact Or.inl ⟨q, hq, rfl⟩
  | cons r rs ih =>
    intro acc rank q hq
    rcases ih _ _ q hq with ⟨p, hp, hd⟩ | hd
    · rcases rrfInsert_docs r _ acc p hp with h | ⟨p', hp', h⟩
      · exact Or.inr (by simp [hd, h])
      · exact Or.inl ⟨p', hp', hd.trans h⟩
    · exact Or.inr (List.mem_cons_of_mem r hd)

theorem rrfAddList_keyId (k : ℚ) (L : List RetrievalDoc) :
    ∀ (acc : List (String × RankedEntry)) (rank : Nat),
      (∀ p ∈ acc, p.1 = p.2.doc.docId) →
      ∀ p ∈ rrfAddList k acc rank L, p.1 = p.2.doc.docId := by
  induction L with
  | nil => intro acc rank h; exact h
  | cons r rs ih =>
    intro acc rank h
    exact ih _ _ (rrfInsert_keyId _ _ _ h)



theorem accum_keyScore (k : ℚ) (Ls : List (List RetrievalDoc)) :
    ∀ (acc : List (String × RankedEntry)) (id : String),
      keyScore (Ls.foldl (fun acc results => rrfAddList k acc 0 results) acc) id =
        keyScore acc id + (Ls.map (fun L => listContrib k 0 L id)).sum := by
  induction Ls with
  | nil => intro acc id; simp
  | cons L Ls ih =>
    intro acc id
    simp only [List.foldl_cons, ih, rrfAddList_keyScore, List.map_cons, List.sum_cons]
    ring

theorem rrfAccumulate_keyScore (k : ℚ) (Ls : List (List RetrievalDoc)) (id : String) :
    keyScore (rrfAccumulate k Ls) id = rrfScore k Ls id := by
  simpa [keyScore, rrfScore] using accum_keyScore k Ls [] id

theorem accum_mem_keys (k : ℚ) (Ls : List (List RetrievalDoc)) :
    ∀ (acc : List (String × RankedEntry)) (id : String),
      id ∈ ((Ls.foldl (fun acc results => rrfAddList k acc 0 results) acc).map Prod.fst) ↔
        id ∈ acc.map Prod.fst ∨ ∃ L ∈ Ls, ∃ r ∈ L, r.docId = id := by
  induction Ls with
  | nil => intro acc id; simp
  | cons L Ls ih =>
    intro acc id
    simp only [List.foldl_cons, ih, rrfAddList_mem_keys, List.mem_cons]
    constructor
    · rintro ((h | ⟨r, hr, rfl⟩) | ⟨L', hL', h⟩)
      · exact Or.inl h
      · exact Or.inr ⟨L, Or.inl rfl, r, hr, rfl⟩
      · exact Or.inr ⟨L', Or.inr hL', h⟩
    · rintro (h | ⟨L', (rfl | hL'), h⟩)
      · exact Or.inl (Or.inl h)
      · exact Or.inl (Or.inr h)
      · exact Or.inr ⟨L', hL', h⟩

theorem rrfAccumulate_mem_keys (k : ℚ) (Ls : List (List RetrievalDoc)) (id : String) :
    id ∈ (rrfAccumulate k Ls).map Prod.fst ↔ ∃ L ∈ Ls, ∃ r ∈ L, r.docId = id := by
  simpa [rrfAccumulate] using accum_mem_keys k Ls [] id

theorem rrfAccumulate_nodup (k : ℚ) (Ls : List (List RetrievalDoc)) :
    ((rrfAccumulate k Ls).map Prod.fst).Nodup := by
  have h : ∀ (acc : List (String × RankedEntry)),
      (acc.map Prod.fst).Nodup →
      ((Ls.foldl (fun acc results => rrfAddList k acc 0 results) acc).map Prod.fst).Nodup := by
    induction Ls with
    | nil => intro acc h; exact h
    | cons L Ls ih => intro acc hacc; exact ih _ (rrfAddList_nodup k L acc 0 hacc)
  simpa [rrfAccumulate] using h [] (by simp)

theorem rrfAccumulate_docs (k : ℚ) (Ls : List (List RetrievalDoc)) :
    ∀ q ∈ rrfAccumulate k Ls, ∃ L ∈ Ls, q.2.doc ∈ L := by
  have h : ∀ (acc : List (String × RankedEntry)),
      ∀ q ∈ Ls.foldl (fun acc results => rrfAddList k acc 0 results) acc,
        (∃ p ∈ acc, q.2.doc = p.2.doc) ∨ ∃ L ∈ Ls, q.2.doc ∈ L := by
    induction Ls with
    | nil => intro acc q hq; exact Or.inl ⟨q, hq, rfl⟩
    | cons L Ls ih =>
      intro acc q hq
      rcases ih _ q hq with ⟨p, hp, hd⟩ | ⟨L', hL', hd⟩
      · rcases rrfAddList_docs k L acc 0 p hp with ⟨p', hp', h'⟩ | h'
        · exact Or.inl ⟨p', hp', hd.trans h'⟩
        · exact Or.inr ⟨L, List.mem_cons_self L Ls, hd ▸ h'⟩
      · exact Or.inr ⟨L', List.mem_cons_of_mem L hL', hd⟩
  intro q hq
  rcases h [] q hq with ⟨p, hp, _⟩ | h'
  · exact absurd hp (List.not_mem_nil p)
  · exact h'

theorem rrfAccumulate_keyId (k : ℚ) (Ls : List (List RetrievalDoc)) :
    ∀ p ∈ rrfAccumulate k Ls, p.1 = p.2.doc.docId := by
  have h : ∀ (acc : List (String × RankedEntry)),
      (∀ p ∈ acc, p.1 = p.2.doc.docId) →
      ∀ p ∈ Ls.foldl (fun acc results => rrfAddList k acc 0 results) acc, p.1 = p.2.doc.docId := by
    induction Ls with
    | nil => intro acc h; exact h
    | cons L Ls ih => intro acc hacc; exact ih _ (rrfAddList_keyId k L acc 0 hacc)
  exact h [] (by simp)

theorem keyScore_of_not_mem (acc : List (String × RankedEntry)) (id : String)
    (h : id ∉ acc.map Prod.fst) : keyScore acc id = 0 := by
  induction acc with
  | nil => rfl
  | cons p ps ih =>
    simp only [List.map_cons, List.mem_cons, not_or] at h
    have : ¬ p.1 = id := fun hc => h.1 hc.symm
    simp [keyScore_cons, this, ih h.2]

theorem score_eq_keyScore_of_nodup (acc : List (String × RankedEntry))
    (h : (acc.map Prod.fst).Nodup) : ∀ p ∈ acc, p.2.score = keyScore acc p.1 := by
  induction acc with
  | nil => simp
  | cons q qs ih =>
    simp only [List.map_cons, List.nodup_cons] at h
    intro p hp
    rcases List.mem_cons.mp hp with rfl | hp'
    · rw [keyScore_cons, if_pos rfl, keyScore_of_not_mem qs p.1 h.1]; ring
    · have hne : ¬ q.1 = p.1 := fun hc => h.1 (hc ▸ (List.mem_map_of_mem Prod.fst hp'))
      rw [keyScore_cons, if_neg hne, ih h.2 p hp']; ring



instance : IsTotal RankedEntry (fun x y => y.score ≤ x.score) :=
  ⟨fun a b => le_total b.score a.score⟩

instance : IsTrans RankedEntry (fun x y => y.score ≤ x.score) :=
  ⟨fun _ _ _ h1 h2 => le_trans h2 h1⟩

theorem sortByScoreDesc_perm (l : List RankedEntry) : List.Perm (sortByScoreDesc l) l :=
  List.perm_insertionSort _ l

theorem sortByScoreDesc_sorted (l : List RankedEntry) :
    (sortByScoreDesc l).Pairwise (fun x y => y.score ≤ x.score) :=
  List.sorted_insertionSort _ l

theorem entry_score_eq (k : ℚ) (Ls : List (List RetrievalDoc)) :
    ∀ v ∈ (rrfAccumulate k Ls).map Prod.snd, v.score = rrfScore k Ls v.doc.docId := by
  intro v hv
  rcases List.mem_map.mp hv with ⟨p, hp, rfl⟩
  rw [← rrfAccumulate_keyId k Ls p hp, ← rrfAccumulate_keyScore k Ls p.1]
  exact score_eq_keyScore_of_nodup _ (rrfAccumulate_nodup k Ls) p hp

theorem rrfFull_pairwise (k : ℚ) (Ls : List (List RetrievalDoc)) :
    (rrfFull Ls k).Pairwise (fun a b => rrfScore k Ls b.docId ≤ rrfScore k Ls a.docId) := by
  rw [rrfFull, List.pairwise_map]
  have hmem : ∀ v ∈ sortByScoreDesc ((rrfAccumulate k Ls).map Prod.snd),
      v.score = rrfScore k Ls v.doc.docId := by
    intro v hv
    exact entry_score_eq k Ls v ((sortByScoreDesc_perm _).mem_iff.mp hv)
  have := sortByScoreDesc_sorted ((rrfAccumulate k Ls).map Prod.snd)
  refine List.Pairwise.imp_of_mem ?_ this
  intro a b ha hb hab
  rw [← hmem a ha, ← hmem b hb]
  exact hab

theorem rrfFull_ids_nodup (k : ℚ) (Ls : List (List RetrievalDoc)) :
    ((rrfFull Ls k).map RetrievalDoc.docId).Nodup := by
  have hkeys : ((rrfAccumulate k Ls).map Prod.snd).map (fun v => v.doc.docId) =
      (rrfAccumulate k Ls).map Prod.fst := by
    rw [List.map_map]
    exact List.map_congr_left (fun p hp => (rrfAccumulate_keyId k Ls p hp).symm)
  have hnd : (((rrfAccumulate k Ls).map Prod.snd).map (fun v => v.doc.docId)).Nodup := by
    rw [hkeys]; exact rrfAccumulate_nodup k Ls
  have hperm : List.Perm
      ((sortByScoreDesc ((rrfAccumulate k Ls).map Prod.snd)).map (fun v => v.doc.docId))
      (((rrfAccumulate k Ls).map Prod.snd).map (fun v => v.doc.docId)) :=
    (sortByScoreDesc_perm _).map _
  rw [rrfFull, List.map_map]
  exact hperm.nodup_iff.mpr hnd

theorem rrfFull_mem (k : ℚ) (Ls : List (List RetrievalDoc)) (id : String) :
    (∃ d ∈ rrfFull Ls k, d.docId = id) ↔ ∃ L ∈ Ls, ∃ r ∈ L, r.docId = id := by
  rw [← rrfAccumulate_mem_keys k Ls id]
  constructor
  · rintro ⟨d, hd, rfl⟩
    rcases List.mem_map.mp hd with ⟨v, hv, rfl⟩
    rcases List.mem_map.mp ((sortByScoreDesc_perm _).mem_iff.mp hv) with ⟨p, hp, rfl⟩
    rw [← rrfAccumulate_keyId k Ls p hp]
    exact List.mem_map_of_mem Prod.fst hp
  · intro h
    rcases List.mem_map.mp h with ⟨p, hp, rfl⟩
    refine ⟨p.2.doc, ?_, (rrfAccumulate_keyId k Ls p hp).symm⟩
    rw [rrfFull]
    refine List.mem_map_of_mem RankedEntry.doc ?_
    exact (sortByScoreDesc_perm _).mem_iff.mpr (List.mem_map_of_mem Prod.snd hp)

theorem rrfFull_docs_sub (k : ℚ) (Ls : List (List RetrievalDoc)) :
    ∀ d ∈ rrfFull Ls k, ∃ L ∈ Ls, d ∈ L := by
  intro d hd
  rcases List.mem_map.mp hd with ⟨v, hv, rfl⟩
  rcases List.mem_map.mp ((sortByScoreDesc_perm _).mem_iff.mp hv) with ⟨p, hp, rfl⟩
  exact rrfAccumulate_docs k Ls p hp

theorem rrfAccumulate_all_nil (k : ℚ) (Ls : List (List RetrievalDoc))
    (h : ∀ L ∈ Ls, L = []) : rrfAccumulate k Ls = [] := by
  have hgen : ∀ (acc : List (String × RankedEntry)),
      Ls.foldl (fun acc results => rrfAddList k acc 0 results) acc = acc := by
    induction Ls with
    | nil => intro acc; rfl
    | cons L Ls ih =>
      intro acc
      rw [List.foldl_cons, h L (List.mem_cons_self L Ls)]
      exact ih (fun L' hL' => h L' (List.mem_cons_of_mem L hL')) acc
  exact hgen []



def docA : RetrievalDoc := ⟨"a", "texto a", "fonte a", 0⟩

def docB : RetrievalDoc := ⟨"b", "texto b", "fonte b", 0⟩

def docA9 : RetrievalDoc := ⟨"a", "texto", "fonte", 9 / 10⟩

theorem listContrib_append (k : ℚ) (xs L : List RetrievalDoc) :
    ∀ (rank : Nat) (id : String),
      listContrib k rank (xs ++ L) id =
        listContrib k rank xs id + listContrib k (rank + xs.length) L id := by
  induction xs with
  | nil => intro rank id; simp [listContrib]
  | cons x xs ih =>
    intro rank id
    simp only [List.cons_append, listContrib, List.append_eq, List.length_cons, ih]
    have h : rank + 1 + xs.length = rank + (xs.length + 1) := by omega
    rw [h]; ring

theorem listContrib_of_not_mem (k : ℚ) (L : List RetrievalDoc) :
    ∀ (rank : Nat) (id : String), id ∉ L.map RetrievalDoc.docId →
      listContrib k rank L id = 0 := by
  induction L with
  | nil => intro rank id _; rfl
  | cons r rs ih =>
    intro rank id h
    simp only [List.map_cons, List.mem_cons, not_or] at h
    have hne : ¬ r.docId = id := fun hc => h.1 hc.symm
    simp [listContrib, hne, ih _ _ h.2]

theorem singleOccScore (k : ℚ) (xs L : List RetrievalDoc) (a : RetrievalDoc)
    (hxs : a.docId ∉ xs.map RetrievalDoc.docId) (hL : a.docId ∉ L.map RetrievalDoc.docId) :
    rrfScore k [xs ++ a :: L] a.docId = 1 / (k + (xs.length : ℚ) + 1) := by
  simp [rrfScore, listContrib_append, listContrib, listContrib_of_not_mem _ _ _ _ hxs,
    listContrib_of_not_mem _ _ _ _ hL]

/-- C1: `_reciprocal_rank_fusion` returns the stable descending sort of the
accumulated entries truncated to `final_k`; the output ids are distinct, the
output is ordered by the total fused score `rrfScore` (each member of each
list contributing `1/(60 + rank + 1)` at zero-based rank, summed across lists
per id), the untruncated ranking contains exactly the ids occurring in some
input list, and all-empty inputs produce an empty output. -/
theorem C1_reciprocal_rank_fusion_spec (lists : List (List RetrievalDoc)) (final_k : Nat) :
    reciprocal_rank_fusion lists final_k = (rrfFull lists 60).take final_k
    ∧ ((reciprocal_rank_fusion lists final_k).map RetrievalDoc.docId).Nodup
    ∧ (reciprocal_rank_fusion lists final_k).Pairwise
        (fun a b => rrfScore 60 lists b.docId ≤ rrfScore 60 lists a.docId)
    ∧ (∀ id : String,
        (∃ d ∈ rrfFull lists 60, d.docId = id) ↔ ∃ L ∈ lists, ∃ r ∈ L, r.docId = id)
    ∧ ((∀ L ∈ lists, L = []) → reciprocal_rank_fusion lists final_k = []) := by
  refine ⟨rfl, ?_, ?_, rrfFull_mem 60 lists, ?_⟩
  · have h := rrfFull_ids_nodup 60 lists
    rw [reciprocal_rank_fusion, List.map_take]
    exact h.sublist (List.take_sublist _ _)
  · exact (rrfFull_pairwise 60 lists).sublist (List.take_sublist _ _)
  · intro h
    simp [reciprocal_rank_fusion, rrfFull, rrfAccumulate_all_nil 60 lists h,
      sortByScoreDesc, List.insertionSort]

/-- Witness for C1 at the concrete input `[]`, `final_k = 3`. -/
theorem C1_reciprocal_rank_fusion_spec_witness : reciprocal_rank_fusion ([] : List (List RetrievalDoc)) 3 = [] :=
  (C1_reciprocal_rank_fusion_spec [] 3).2.2.2.2 (fun L hL => absurd hL (List.not_mem_nil L))

/-- C2 counterexample: for the fused retrieval over the single list
`[docA9]` (a record whose underlying retrieval score is `9/10`), the record
returned carries score `9/10`, while its reciprocal-rank-fusion total is
`1/61`; the two differ, so the returned score is not the RRF score. -/
theorem C2_fused_score_counterexample :
    reciprocal_rank_fusion [[docA9]] 1 = [docA9]
    ∧ rrfScore 60 [[docA9]] docA9.docId = 1 / 61
    ∧ docA9.score = 9 / 10
    ∧ (9 / 10 : ℚ) ≠ 1 / 61 := by
  refine ⟨rfl, ?_, rfl, by norm_num⟩
  norm_num [rrfScore, listContrib, docA9]

/-- C2 amended: every record returned by a fused retrieval is one of the
input records unchanged (hence it carries the score of the underlying
retrieval method, not the RRF total); the RRF total is used only to order
the output. -/
theorem C2_fused_records_amended :
    (∀ (lists : List (List RetrievalDoc)) (final_k : Nat),
       ∀ d ∈ reciprocal_rank_fusion lists final_k, ∃ L ∈ lists, d ∈ L)
    ∧ (∀ (lists : List (List RetrievalDoc)) (final_k : Nat),
       (reciprocal_rank_fusion lists final_k).Pairwise
         (fun a b => rrfScore 60 lists b.docId ≤ rrfScore 60 lists a.docId)) := by
  constructor
  · intro lists final_k d hd
    exact rrfFull_docs_sub 60 lists d (List.mem_of_mem_take hd)
  · intro lists final_k
    exact (rrfFull_pairwise 60 lists).sublist (List.take_sublist _ _)

/-- Witness for C2's amended theorem at the concrete input `[[docA9]]`. -/
theorem C2_fused_records_amended_witness : ∃ L ∈ [[docA9]], docA9 ∈ L :=
  C2_fused_records_amended.1 [[docA9]] 1 docA9
    (by simp [show reciprocal_rank_fusion [[docA9]] 1 = [docA9] from rfl])

/-- C3 counterexample: fusing the two non-empty lists `[docA]` and `[docB]`
in the two possible orders yields different final rankings (`[docA, docB]`
versus `[docB, docA]`), because ties on the fused score are broken by dict
insertion order, which depends on the order of the input lists. -/
theorem C3_list_order_counterexample :
    reciprocal_rank_fusion [[docA], [docB]] 2 ≠ reciprocal_rank_fusion [[docB], [docA]] 2 := by
  have h1 : reciprocal_rank_fusion [[docA], [docB]] 2 = [docA, docB] := by
    norm_num [reciprocal_rank_fusion, rrfFull, rrfAccumulate, rrfAddList, rrfInsert,
      sortByScoreDesc, List.insertionSort, List.orderedInsert, docA, docB]
  have h2 : reciprocal_rank_fusion [[docB], [docA]] 2 = [docB, docA] := by
    norm_num [reciprocal_rank_fusion, rrfFull, rrfAccumulate, rrfAddList, rrfInsert,
      sortByScoreDesc, List.insertionSort, List.orderedInsert, docA, docB]
  rw [h1, h2]
  decide

/-- C3 amended: swapping the order of the two input lists preserves every
id's total fused score and the set of ids in the fused ranking (though the
output order may differ at ties, as the counterexample shows); and swapping
the positions of two distinct items within one input list changes both
items' fused scores. -/
theorem C3_fusion_symmetry_amended :
    (∀ (L1 L2 : List RetrievalDoc) (id : String),
        rrfScore 60 [L1, L2] id = rrfScore 60 [L2, L1] id)
    ∧ (∀ (L1 L2 : List RetrievalDoc) (id : String),
        ((∃ d ∈ rrfFull [L1, L2] 60, d.docId = id) ↔ (∃ d ∈ rrfFull [L2, L1] 60, d.docId = id)))
    ∧ (∀ (xs ys zs : List RetrievalDoc) (a b : RetrievalDoc),
        a.docId ≠ b.docId →
        a.docId ∉ (xs ++ ys ++ zs).map RetrievalDoc.docId →
        b.docId ∉ (xs ++ ys ++ zs).map RetrievalDoc.docId →
        rrfScore 60 [xs ++ a :: (ys ++ b :: zs)] a.docId ≠
          rrfScore 60 [xs ++ b :: (ys ++ a :: zs)] a.docId
        ∧ rrfScore 60 [xs ++ a :: (ys ++ b :: zs)] b.docId ≠
          rrfScore 60 [xs ++ b :: (ys ++ a :: zs)] b.docId) := by
  refine ⟨?_, ?_, ?_⟩
  · intro L1 L2 id
    simp [rrfScore]
    ring
  · intro L1 L2 id
    simp only [rrfFull_mem]
    have hswap : ∀ (A B : List RetrievalDoc),
        (∃ L ∈ [A, B], ∃ r ∈ L, r.docId = id) → ∃ L ∈ [B, A], ∃ r ∈ L, r.docId = id := by
      rintro A B ⟨L, hL, r, hr, hid⟩
      rcases List.mem_cons.mp hL with rfl | hL2
      · exact ⟨L, by simp, r, hr, hid⟩
      · rcases List.mem_cons.mp hL2 with rfl | hL3
        · exact ⟨L, by simp, r, hr, hid⟩
        · exact absurd hL3 (List.not_mem_nil L)
    exact ⟨hswap L1 L2, hswap L2 L1⟩
  · intro xs ys zs a b hab ha hb
    simp only [List.map_append, List.mem_append, not_or] at ha hb
    have hba : b.docId ≠ a.docId := fun h => hab h.symm
    constructor
    · have e1 : rrfScore 60 [xs ++ a :: (ys ++ b :: zs)] a.docId =
          1 / (60 + (xs.length : ℚ) + 1) := by
        refine singleOccScore 60 xs (ys ++ b :: zs) a ha.1.1 ?_
        simp [ha.1.2, ha.2, hab]
      have e2 : rrfScore 60 [xs ++ b :: (ys ++ a :: zs)] a.docId =
          1 / (60 + ((xs ++ b :: ys).length : ℚ) + 1) := by
        have hsh : xs ++ b :: (ys ++ a :: zs) = (xs ++ b :: ys) ++ a :: zs := by
          simp
        rw [hsh]
        refine singleOccScore 60 (xs ++ b :: ys) zs a ?_ ha.2
        simp [ha.1.1, ha.1.2, hab]
      rw [e1, e2]
      intro h
      rw [one_div, one_div, inv_inj] at h
      have hlen : ((xs ++ b :: ys).length : ℚ) = (xs.length : ℚ) := by linarith
      have : (xs.length : ℚ) + (ys.length : ℚ) + 1 = (xs.length : ℚ) := by
        push_cast at hlen ⊢
        simp only [List.length_append, List.length_cons] at hlen
        push_cast at hlen
        linarith
      have hy : (0 : ℚ) ≤ (ys.length : ℚ) := Nat.cast_nonneg _
      linarith
    · have e1 : rrfScore 60 [xs ++ a :: (ys ++ b :: zs)] b.docId =
          1 / (60 + ((xs ++ a :: ys).length : ℚ) + 1) := by
        have hsh : xs ++ a :: (ys ++ b :: zs) = (xs ++ a :: ys) ++ b :: zs := by
          simp
        rw [hsh]
        refine singleOccScore 60 (xs ++ a :: ys) zs b ?_ hb.2
        simp [hb.1.1, hb.1.2, hba]
      have e2 : rrfScore 60 [xs ++ b :: (ys ++ a :: zs)] b.docId =
          1 / (60 + (xs.length : ℚ) + 1) := by
        refine singleOccScore 60 xs (ys ++ a :: zs) b hb.1.1 ?_
        simp [hb.1.2, hb.2, hba]
      rw [e1, e2]
      intro h
      rw [one_div, one_div, inv_inj] at h
      have : ((xs ++ a :: ys).length : ℚ) = (xs.length : ℚ) := by linarith
      simp only [List.length_append, List.length_cons] at this
      push_cast at this
      have hy : (0 : ℚ) ≤ (ys.length : ℚ) := Nat.cast_nonneg _
      linarith

/-- Witness for C3's amended theorem at `xs = ys = zs = []`, `a = docA`,
`b = docB`. -/
theorem C3_fusion_symmetry_amended_witness :
    rrfScore 60 [[docA, docB]] docA.docId ≠ rrfScore 60 [[docB, docA]] docA.docId
    ∧ rrfScore 60 [[docA, docB]] docB.docId ≠ rrfScore 60 [[docB, docA]] docB.docId :=
  C3_fusion_symmetry_amended.2.2 [] [] [] docA docB (by decide) (by simp) (by simp)


end Chatbot

namespace Sync

/-- Python `str.strip()`: drop leading and trailing whitespace.  Implemented
structurally over the character list so that concrete instances compute. -/
def pyStrip (s : String) : String :=
  String.mk (((s.data.dropWhile Char.isWhitespace).reverse.dropWhile Char.isWhitespace).reverse)

/-- Python `str.startswith`, structurally over the character lists. -/
def pyStartsWith (s pre : String) : Bool :=
  pre.data.isPrefixOf s.data

structure Bloco where
  texto : String
  tamanho : Nat
  texto_hash : String
  embedding : Option (List ℚ)
  indice_bloco : Nat
  deriving DecidableEq, Repr

structure ChunkParams where
  hash : String
  chunk_size : Nat
  chunk_overlap : Nat
  status : String
  deriving DecidableEq, Repr

structure PortariaDoc where
  texto_completo : String
  chunk_params : Option ChunkParams
  texto_blocos : List Bloco
  deriving DecidableEq, Repr

def errorStatuses : List String := ["ERRO_NO_CHUNKING", "ERRO_NA_COLETA", "TEXTO_VAZIO"]

def needs_reprocessing (cp? : Option ChunkParams) (current_hash : String)
    (cs co : Nat) : Bool :=
  match cp? with
  | none => true
  | some cp =>
    if cp.hash ≠ current_hash then true
    else if cp.chunk_size ≠ cs then true
    else if cp.chunk_overlap ≠ co then true
    else if cp.status ∈ errorStatuses then true
    else false

def eligBloco (b : Bloco) : Bool :=
  b.texto_hash ≠ "" && (match b.embedding with | some e => e ≠ [] | none => false)

def dictInsertEmb (key : String) (v : List ℚ) :
    List (String × List ℚ) → List (String × List ℚ)
  | [] => [(key, v)]
  | p :: ps => if p.1 = key then (key, v) :: ps else p :: dictInsertEmb key v ps

def dictGet : List (String × List ℚ) → String → Option (List ℚ)
  | [], _ => none
  | p :: ps, key => if p.1 = key then some p.2 else dictGet ps key

def buildTableAux (tbl : List (String × List ℚ)) : List Bloco → List (String × List ℚ)
  | [] => tbl
  | b :: bs =>
    buildTableAux
      (match b.embedding with
       | some e => if b.texto_hash ≠ "" && e ≠ [] then dictInsertEmb b.texto_hash e tbl else tbl
       | none => tbl) bs

def buildEmbeddingTable (bs : List Bloco) : List (String × List ℚ) :=
  buildTableAux [] bs

def novosBlocos (hashFn : String → String) (tbl : List (String × List ℚ)) :
    Nat → List String → List Bloco
  | _, [] => []
  | i, t :: ts =>
    let tl := pyStrip t
    if tl = "" then novosBlocos hashFn tbl (i + 1) ts
    else
      { texto := tl, tamanho := tl.length, texto_hash := hashFn tl,
        embedding := dictGet tbl (hashFn tl), indice_bloco := i } ::
      novosBlocos hashFn tbl (i + 1) ts

inductive DocOutcome where
  | notVisited
  | collectionError
  | textoVazio
  | skipped
  | processed
  deriving DecidableEq, Repr

/-- What one reconciliation pass of `split_text_into_blocks` does to one
stored document.  The driving query (text_processing.py lines 48-54)
selects only documents with `"texto_completo": {"$exists": True, "$ne": ""}`:
a document whose raw text is exactly `""` is never visited by the cursor and
keeps its previous state (`notVisited`, zero writes).  For visited
documents the loop body runs: collection-error sentinels and
whitespace-only texts are rewritten unconditionally, an up-to-date document
is skipped, and otherwise the document is re-chunked. -/
def processDocChunking (hashFn : String → String) (split : String → List String)
    (cs co : Nat) (doc : PortariaDoc) : PortariaDoc × Nat × DocOutcome :=
  if doc.texto_completo = "" then (doc, 0, DocOutcome.notVisited)
  else if pyStartsWith doc.texto_completo "ERRO_" || doc.texto_completo = "Conteúdo não encontrado" then
    ({ doc with
        texto_blocos := [],
        chunk_params := some (ChunkParams.mk (hashFn doc.texto_completo) cs co "ERRO_NA_COLETA") },
      1, DocOutcome.collectionError)
  else if pyStrip doc.texto_completo = "" then
    ({ doc with
        texto_blocos := [],
        chunk_params := some (ChunkParams.mk (hashFn "") cs co "TEXTO_VAZIO") },
      1, DocOutcome.textoVazio)
  else if needs_reprocessing doc.chunk_params (hashFn (pyStrip doc.texto_completo)) cs co = false then
    (doc, 0, DocOutcome.skipped)
  else
    let current_hash := hashFn (pyStrip doc.texto_completo)
    let tbl :=
      match doc.chunk_params with
      | some cp =>
        if cp.hash = current_hash then buildEmbeddingTable doc.texto_blocos else []
      | none => []
    ({ doc with
        texto_blocos := novosBlocos hashFn tbl 0 (split (pyStrip doc.texto_completo)),
        chunk_params := some (ChunkParams.mk current_hash cs co "PROCESSADO_OK") },
      1, DocOutcome.processed)

def lastMatch (h : String) : List Bloco → Option Bloco
  | [] => none
  | b :: bs =>
    match lastMatch h bs with
    | some bm => some bm
    | none => if eligBloco b && decide (b.texto_hash = h) then some b else none

theorem dictGet_dictInsertEmb (key : String) (v : List ℚ) (tbl : List (String × List ℚ))
    (h : String) :
    dictGet (dictInsertEmb key v tbl) h = if h = key then some v else dictGet tbl h := by
  induction tbl with
  | nil =>
    by_cases hk : h = key
    · simp [dictInsertEmb, dictGet, hk]
    · have hk2 : ¬ key = h := fun h2 => hk h2.symm
      simp [dictInsertEmb, dictGet, hk, hk2]
  | cons p ps ih =>
    by_cases hp : p.1 = key
    · by_cases hk : h = key
      · subst hk
        simp [dictInsertEmb, dictGet, hp]
      · have hk2 : ¬ key = h := fun h2 => hk h2.symm
        have hph : ¬ p.1 = h := fun h2 => hk (h2.symm.trans hp)
        simp [dictInsertEmb, dictGet, hp, hk, hk2, hph]
    · by_cases hph : p.1 = h
      · have hk : ¬ h = key := fun h2 => hp (hph.trans h2)
        simp [dictInsertEmb, dictGet, hp, hph, hk]
      · simp [dictInsertEmb, dictGet, hp, hph, ih]

theorem dictGet_buildTableAux (h : String) (bs : List Bloco) :
    ∀ (tbl : List (String × List ℚ)),
      dictGet (buildTableAux tbl bs) h =
        match lastMatch h bs with
        | some b => b.embedding
        | none => dictGet tbl h := by
  induction bs with
  | nil => intro tbl; simp [buildTableAux, lastMatch]
  | cons b bs ih =>
    intro tbl
    rcases hemb : b.embedding with _ | e
    · have helig : eligBloco b = false := by simp [eligBloco, hemb]
      rcases hlm : lastMatch h bs with _ | bm <;>
        simp [buildTableAux, hemb, lastMatch, hlm, helig, ih]
    · by_cases h1 : b.texto_hash = ""
      · have helig : eligBloco b = false := by simp [eligBloco, hemb, h1]
        rcases hlm : lastMatch h bs with _ | bm <;>
          simp [buildTableAux, hemb, lastMatch, hlm, helig, h1, ih]
      · by_cases h2 : e = []
        · have helig : eligBloco b = false := by simp [eligBloco, hemb, h2]
          rcases hlm : lastMatch h bs with _ | bm <;>
            simp [buildTableAux, hemb, lastMatch, hlm, helig, h1, h2, ih]
        · have helig : eligBloco b = true := by simp [eligBloco, hemb, h1, h2]
          rcases hlm : lastMatch h bs with _ | bm
          · by_cases h3 : b.texto_hash = h
            · have h1b : ¬ h = "" := h3 ▸ h1
              simp [buildTableAux, hemb, lastMatch, hlm, helig, h1, h1b, h2, h3, ih,
                dictGet_dictInsertEmb]
            · have h4 : ¬ h = b.texto_hash := fun h5 => h3 h5.symm
              simp [buildTableAux, hemb, lastMatch, hlm, helig, h1, h2, h3, h4, ih,
                dictGet_dictInsertEmb]
          · simp [buildTableAux, hemb, lastMatch, hlm, helig, h1, h2, ih]

theorem lastMatch_spec (h : String) (bs : List Bloco) :
    (∀ b, lastMatch h bs = some b → b ∈ bs ∧ b.texto_hash = h ∧ eligBloco b = true)
    ∧ (lastMatch h bs = none → ∀ b ∈ bs, ¬(eligBloco b = true ∧ b.texto_hash = h)) := by
  induction bs with
  | nil => simp [lastMatch]
  | cons b bs ih =>
    constructor
    · intro bx hbx
      rcases hlm : lastMatch h bs with _ | bm
      · rw [lastMatch, hlm] at hbx
        by_cases hc : (eligBloco b && decide (b.texto_hash = h)) = true
        · rw [if_pos hc] at hbx
          cases hbx
          simp only [Bool.and_eq_true, decide_eq_true_eq] at hc
          exact ⟨List.mem_cons_self _ _, hc.2, hc.1⟩
        · rw [if_neg hc] at hbx; cases hbx
      · rw [lastMatch, hlm] at hbx
        injection hbx with hbb
        subst hbb
        obtain ⟨hmem, hh, helig⟩ := ih.1 _ hlm
        exact ⟨List.mem_cons_of_mem _ hmem, hh, helig⟩
    · intro hnone bx hbx
      rcases hlm : lastMatch h bs with _ | bm
      · rw [lastMatch, hlm] at hnone
        by_cases hc : (eligBloco b && decide (b.texto_hash = h)) = true
        · rw [if_pos hc] at hnone; cases hnone
        · rcases List.mem_cons.mp hbx with rfl | hmem
          · intro hcon
            exact hc (by simp [hcon.1, hcon.2])
          · exact ih.2 hlm bx hmem
      · rw [lastMatch, hlm] at hnone; cases hnone

theorem novosBlocos_embedding (hashFn : String → String) (tbl : List (String × List ℚ)) :
    ∀ (i : Nat) (ts : List String), ∀ b ∈ novosBlocos hashFn tbl i ts,
      b.embedding = dictGet tbl b.texto_hash := by
  intro i ts
  induction ts generalizing i with
  | nil => simp [novosBlocos]
  | cons t ts ih =>
    intro b hb
    rw [novosBlocos] at hb
    by_cases he : pyStrip t = ""
    · exact ih _ b (by simpa [he] using hb)
    · simp only [he, if_neg, ite_false] at hb
      rcases List.mem_cons.mp hb with rfl | hmem
      · rfl
      · exact ih _ b hmem

def pendingEmbedding (b : Bloco) : Bool :=
  match b.embedding with
  | none => true
  | some e => e.isEmpty

def blocoElemMatch (b : Bloco) : Bool :=
  b.texto ≠ "" && b.texto_hash ≠ "" && pendingEmbedding b

def docMatchesEmbeddingQuery (d : PortariaDoc) : Bool :=
  (match d.chunk_params with
   | some cp => decide (cp.status ∉ ["ERRO_NA_COLETA", "TEXTO_VAZIO", "ERRO_NO_CHUNKING"])
   | none => true)
  && d.texto_blocos.any blocoElemMatch

def indexCorpus (docs : List PortariaDoc) : List Bloco :=
  (docs.map PortariaDoc.texto_blocos).flatten

/-- C6 amended: for a stored document whose current text is not a
collection-error sentinel and is non-empty after trimming, whose stored
content hash equals the hash of the current trimmed text, whose stored
chunk_size and chunk_overlap equal the script configuration, and whose
stored status is not an error status, the reconciliation pass performs no
write: the document state is returned unchanged with a write count of 0,
decided by comparing the stored `chunk_params` metadata. -/
theorem C6_noop_amended (hashFn : String → String) (split : String → List String)
    (cs co : Nat) (doc : PortariaDoc) (cp : ChunkParams)
    (hcp : doc.chunk_params = some cp)
    (hsent : pyStartsWith doc.texto_completo "ERRO_" = false)
    (hnc : doc.texto_completo ≠ "Conteúdo não encontrado")
    (hne : pyStrip doc.texto_completo ≠ "")
    (hhash : cp.hash = hashFn (pyStrip doc.texto_completo))
    (hcs : cp.chunk_size = cs) (hco : cp.chunk_overlap = co)
    (hst : cp.status ∉ errorStatuses) :
    processDocChunking hashFn split cs co doc = (doc, 0, DocOutcome.skipped) := by
  have hne0 : ¬ doc.texto_completo = "" := fun h0 => hne (by rw [h0]; rfl)
  have hnr : needs_reprocessing doc.chunk_params (hashFn (pyStrip doc.texto_completo)) cs co
      = false := by
    rw [hcp]
    simp [needs_reprocessing, hhash, hcs, hco, hst]
  simp [processDocChunking, hne0, hsent, hnc, hne, hnr]

/-- Witness for C6's amended theorem at a concrete already-processed
document. -/
theorem C6_noop_amended_witness :
    processDocChunking (fun s => s) (fun s => [s]) 1000 200
      (PortariaDoc.mk "abc" (some (ChunkParams.mk "abc" 1000 200 "PROCESSADO_OK")) []) =
      (PortariaDoc.mk "abc" (some (ChunkParams.mk "abc" 1000 200 "PROCESSADO_OK")) [],
        0, DocOutcome.skipped) :=
  C6_noop_amended (fun s => s) (fun s => [s]) 1000 200 _ _ rfl (by decide) (by decide)
    (by decide) (by decide) rfl rfl (by decide)

/-- C6 counterexample: a stored document with whitespace-only text whose
stored hash equals the hash of its trimmed (empty) text, whose stored chunk
parameters match the configuration, and whose status `PROCESSADO_OK` is not
an error status, still receives a write on the reconciliation pass (the
empty-text branch runs before the metadata comparison and unconditionally
rewrites blocks and status to `TEXTO_VAZIO`). -/
theorem C6_noop_counterexample :
    ((PortariaDoc.mk " " (some (ChunkParams.mk "" 1000 200 "PROCESSADO_OK")) []).chunk_params =
      some (ChunkParams.mk
        ((fun s : String => s) (pyStrip (PortariaDoc.mk " "
          (some (ChunkParams.mk "" 1000 200 "PROCESSADO_OK")) []).texto_completo))
        1000 200 "PROCESSADO_OK"))
    ∧ "PROCESSADO_OK" ∉ errorStatuses
    ∧ (processDocChunking (fun s => s) (fun s => [s]) 1000 200
        (PortariaDoc.mk " " (some (ChunkParams.mk "" 1000 200 "PROCESSADO_OK")) [])).2.1 = 1
    ∧ (processDocChunking (fun s => s) (fun s => [s]) 1000 200
        (PortariaDoc.mk " " (some (ChunkParams.mk "" 1000 200 "PROCESSADO_OK")) [])).1 ≠
        PortariaDoc.mk " " (some (ChunkParams.mk "" 1000 200 "PROCESSADO_OK")) [] := by
  refine ⟨by decide, by decide, by decide, by decide⟩

/-- C7 counterexample: a re-chunking run on a document whose content hash
changed (stored hash `"old text"` differs from the current text) writes the
recurring chunk `"abc"` — whose text hash matches a previously stored chunk
with embedding `[1]` — with a `none` embedding instead of reusing `[1]`:
the reuse table is only populated when the document content hash is
unchanged. -/
theorem C7_reuse_counterexample :
    ((PortariaDoc.mk "new text" (some (ChunkParams.mk "old text" 1000 200 "PROCESSADO_OK"))
        [Bloco.mk "abc" 3 "abc" (some [1]) 0]).texto_blocos.map Bloco.texto_hash = ["abc"])
    ∧ ((PortariaDoc.mk "new text" (some (ChunkParams.mk "old text" 1000 200 "PROCESSADO_OK"))
        [Bloco.mk "abc" 3 "abc" (some [1]) 0]).texto_blocos.map Bloco.embedding = [some [1]])
    ∧ ((processDocChunking (fun s => s) (fun _ => ["abc", "xyz"]) 1000 200
        (PortariaDoc.mk "new text" (some (ChunkParams.mk "old text" 1000 200 "PROCESSADO_OK"))
          [Bloco.mk "abc" 3 "abc" (some [1]) 0])).1.texto_blocos.map Bloco.texto_hash
        = ["abc", "xyz"])
    ∧ ((processDocChunking (fun s => s) (fun _ => ["abc", "xyz"]) 1000 200
        (PortariaDoc.mk "new text" (some (ChunkParams.mk "old text" 1000 200 "PROCESSADO_OK"))
          [Bloco.mk "abc" 3 "abc" (some [1]) 0])).1.texto_blocos.map Bloco.embedding
        = [none, none]) := by
  refine ⟨by decide, by decide, by decide, by decide⟩

/-- C7 amended: on a re-chunking run whose trigger is not a content change
(the stored content hash equals the current one, e.g. chunk parameters or an
error status changed), every new chunk whose text hash matches a previously
stored chunk that had a (non-empty) embedding is written with that chunk's
embedding (the last such chunk, per Python dict semantics), and new chunks
with no matching prior hash are written with a null embedding.  When the
content hash changed, every new chunk is written with a null embedding. -/
theorem C7_embedding_reuse_amended (hashFn : String → String) (split : String → List String)
    (cs co : Nat) (doc : PortariaDoc) (cp : ChunkParams)
    (hcp : doc.chunk_params = some cp)
    (hsent : pyStartsWith doc.texto_completo "ERRO_" = false)
    (hnc : doc.texto_completo ≠ "Conteúdo não encontrado")
    (hne : pyStrip doc.texto_completo ≠ "")
    (hnr : needs_reprocessing doc.chunk_params (hashFn (pyStrip doc.texto_completo)) cs co
      = true) :
    (cp.hash = hashFn (pyStrip doc.texto_completo) →
      ∀ b ∈ (processDocChunking hashFn split cs co doc).1.texto_blocos,
        (∀ old, lastMatch b.texto_hash doc.texto_blocos = some old →
          b.embedding = old.embedding)
        ∧ (lastMatch b.texto_hash doc.texto_blocos = none → b.embedding = none))
    ∧ (cp.hash ≠ hashFn (pyStrip doc.texto_completo) →
      ∀ b ∈ (processDocChunking hashFn split cs co doc).1.texto_blocos,
        b.embedding = none) := by
  have hres : (processDocChunking hashFn split cs co doc).1.texto_blocos =
      novosBlocos hashFn
        (match doc.chunk_params with
         | some cp' =>
           if cp'.hash = hashFn (pyStrip doc.texto_completo)
           then buildEmbeddingTable doc.texto_blocos else []
         | none => []) 0 (split (pyStrip doc.texto_completo)) := by
    have hne0 : ¬ doc.texto_completo = "" := fun h0 => hne (by rw [h0]; rfl)
    simp [processDocChunking, hne0, hsent, hnc, hne, hnr]
  constructor
  · intro hh b hb
    rw [hres, hcp] at hb
    simp only [hh, if_pos] at hb
    have hemb := novosBlocos_embedding hashFn (buildEmbeddingTable doc.texto_blocos) 0
      (split (pyStrip doc.texto_completo)) b (by simpa [hh] using hb)
    rw [buildEmbeddingTable] at hemb
    rw [hemb, dictGet_buildTableAux]
    constructor
    · intro old hold
      rw [hold]
    · intro hnone
      rw [hnone]
      rfl
  · intro hh b hb
    rw [hres, hcp] at hb
    simp only [hh, if_neg] at hb
    have hemb := novosBlocos_embedding hashFn [] 0
      (split (pyStrip doc.texto_completo)) b (by simpa [hh] using hb)
    rw [hemb]
    rfl

/-- C8 counterexample: a document whose raw text is exactly `""` (as stored
by the collector when no text is extractable) is filtered out by the pass's
query `"texto_completo": {"$ne": ""}` and never visited: it receives no
write, its status stays `PROCESSADO_OK` (never `TEXTO_VAZIO`), its stale
pending block survives, it still matches the embedding-generation query, and
it still contributes its stale chunk to an index corpus built over document
blocks — contradicting the claim for the "empty" half of "empty or
whitespace-only". -/
theorem C8_query_skip_counterexample :
    (processDocChunking (fun s => s) (fun s => [s]) 1000 200
      (PortariaDoc.mk "" (some (ChunkParams.mk "H" 1000 200 "PROCESSADO_OK"))
        [Bloco.mk "stale" 5 "h" none 0])) =
      (PortariaDoc.mk "" (some (ChunkParams.mk "H" 1000 200 "PROCESSADO_OK"))
        [Bloco.mk "stale" 5 "h" none 0], 0, DocOutcome.notVisited)
    ∧ (processDocChunking (fun s => s) (fun s => [s]) 1000 200
        (PortariaDoc.mk "" (some (ChunkParams.mk "H" 1000 200 "PROCESSADO_OK"))
          [Bloco.mk "stale" 5 "h" none 0])).1.chunk_params ≠
        some (ChunkParams.mk "" 1000 200 "TEXTO_VAZIO")
    ∧ docMatchesEmbeddingQuery (processDocChunking (fun s => s) (fun s => [s]) 1000 200
        (PortariaDoc.mk "" (some (ChunkParams.mk "H" 1000 200 "PROCESSADO_OK"))
          [Bloco.mk "stale" 5 "h" none 0])).1 = true
    ∧ indexCorpus [(processDocChunking (fun s => s) (fun s => [s]) 1000 200
        (PortariaDoc.mk "" (some (ChunkParams.mk "H" 1000 200 "PROCESSADO_OK"))
          [Bloco.mk "stale" 5 "h" none 0])).1] ≠ [] := by
  refine ⟨by decide, by decide, by decide, by decide⟩

/-- C8 amended: a document whose raw text is whitespace-only but not
exactly empty (so the pass's query visits it, and it is not a
collection-error sentinel) yields zero chunks, gets status `TEXTO_VAZIO`
recorded in its chunk parameters, is not matched by the embedding-generation
query, and contributes no chunks to a retrieval index corpus built over
document blocks; a document whose raw text is exactly the empty string is
not visited by the pass at all — it receives no write and keeps its
previous status and chunks. -/
theorem C8_empty_text_amended (hashFn : String → String) (split : String → List String)
    (cs co : Nat) (doc : PortariaDoc)
    (hsent : pyStartsWith doc.texto_completo "ERRO_" = false)
    (hnc : doc.texto_completo ≠ "Conteúdo não encontrado")
    (hempty : pyStrip doc.texto_completo = "") :
    (doc.texto_completo ≠ "" →
      (processDocChunking hashFn split cs co doc).1.texto_blocos = []
      ∧ (processDocChunking hashFn split cs co doc).1.chunk_params =
          some (ChunkParams.mk (hashFn "") cs co "TEXTO_VAZIO")
      ∧ (processDocChunking hashFn split cs co doc).2.2 = DocOutcome.textoVazio
      ∧ docMatchesEmbeddingQuery (processDocChunking hashFn split cs co doc).1 = false
      ∧ indexCorpus [(processDocChunking hashFn split cs co doc).1] = [])
    ∧ (doc.texto_completo = "" →
      processDocChunking hashFn split cs co doc = (doc, 0, DocOutcome.notVisited)) := by
  constructor
  · intro hne0
    have hres : processDocChunking hashFn split cs co doc =
        ({ doc with
            texto_blocos := [],
            chunk_params := some (ChunkParams.mk (hashFn "") cs co "TEXTO_VAZIO") },
          1, DocOutcome.textoVazio) := by
      simp [processDocChunking, hne0, hsent, hnc, hempty]
    rw [hres]
    refine ⟨rfl, rfl, rfl, ?_, rfl⟩
    simp [docMatchesEmbeddingQuery]
  · intro h0
    simp [processDocChunking, h0]

/-- Witness for C8's amended theorem at a concrete whitespace-only document
and a concrete exactly-empty document. -/
theorem C8_empty_text_amended_witness :
    ((processDocChunking (fun s => s) (fun s => [s]) 500 150
      (PortariaDoc.mk "  " none [])).1.texto_blocos = []
    ∧ (processDocChunking (fun s => s) (fun s => [s]) 500 150
      (PortariaDoc.mk "  " none [])).1.chunk_params =
        some (ChunkParams.mk ((fun s : String => s) "") 500 150 "TEXTO_VAZIO")
    ∧ (processDocChunking (fun s => s) (fun s => [s]) 500 150
      (PortariaDoc.mk "  " none [])).2.2 = DocOutcome.textoVazio
    ∧ docMatchesEmbeddingQuery (processDocChunking (fun s => s) (fun s => [s]) 500 150
      (PortariaDoc.mk "  " none [])).1 = false
    ∧ indexCorpus [(processDocChunking (fun s => s) (fun s => [s]) 500 150
      (PortariaDoc.mk "  " none [])).1] = [])
    ∧ processDocChunking (fun s => s) (fun s => [s]) 500 150 (PortariaDoc.mk "" none []) =
        (PortariaDoc.mk "" none [], 0, DocOutcome.notVisited) :=
  ⟨(C8_empty_text_amended (fun s => s) (fun s => [s]) 500 150
      (PortariaDoc.mk "  " none []) (by decide) (by decide) (by decide)).1 (by decide),
   (C8_empty_text_amended (fun s => s) (fun s => [s]) 500 150
      (PortariaDoc.mk "" none []) (by decide) (by decide) (by decide)).2 rfl⟩


/-- Witness for C7's amended theorem at a concrete parameter-change re-chunk
of a document whose content is unchanged: the recurring chunk `"abc"` reuses
the stored embedding `[1]` and the new chunk `"xyz"` gets no embedding. -/
theorem C7_embedding_reuse_amended_witness :
    (Bloco.mk "abc" 3 "abc" (some [1]) 0).embedding = some [1]
    ∧ (Bloco.mk "xyz" 3 "xyz" none 1).embedding = none :=
  ⟨((C7_embedding_reuse_amended (fun s => s) (fun _ => ["abc", "xyz"]) 1000 200
      (PortariaDoc.mk "same" (some (ChunkParams.mk "same" 500 100 "PROCESSADO_OK"))
        [Bloco.mk "abc" 3 "abc" (some [1]) 0])
      (ChunkParams.mk "same" 500 100 "PROCESSADO_OK")
      rfl (by decide) (by decide) (by decide) (by decide)).1 (by decide)
      (Bloco.mk "abc" 3 "abc" (some [1]) 0) (by decide)).1
      (Bloco.mk "abc" 3 "abc" (some [1]) 0) (by decide),
   ((C7_embedding_reuse_amended (fun s => s) (fun _ => ["abc", "xyz"]) 1000 200
      (PortariaDoc.mk "same" (some (ChunkParams.mk "same" 500 100 "PROCESSADO_OK"))
        [Bloco.mk "abc" 3 "abc" (some [1]) 0])
      (ChunkParams.mk "same" 500 100 "PROCESSADO_OK")
      rfl (by decide) (by decide) (by decide) (by decide)).1 (by decide)
      (Bloco.mk "xyz" 3 "xyz" none 1) (by decide)).2 (by decide)⟩

end Sync

namespace Sync

/-- Constants from `src/backend/embedding_generation.py` (lines 26-33). -/
def EMBEDDING_MODEL_DIMENSION : Nat := 1536

def EMBEDDING_API_MAX_RETRIES : Nat := 5

def EMBEDDING_MAIN_LOOP_MAX_ATTEMPTS : Nat := 10

def EMBEDDING_MAIN_LOOP_NO_PROGRESS_THRESHOLD : Nat := 3

/-- One embedding-provider HTTP exchange, as seen by a single attempt of
`get_embedding_from_api`: a transport-level failure (`requests.HTTPError`,
`Timeout`, `ConnectionError`), a response without the expected `data`
structure, or a response carrying a vector. -/
inductive ApiAttempt where
  | transport
  | badStructure
  | vector (v : List ℚ)
  deriving DecidableEq, Repr

/-- The exception kinds that can leave one attempt of
`get_embedding_from_api`: a `requests` transport error (re-raised at line
148) or an `EmbeddingProcessingError` (empty input, bad structure, wrong
dimension, JSON decode failure). -/
inductive EmbError where
  | transportError
  | processingError
  deriving DecidableEq, Repr

/-- One attempt of the body of `get_embedding_from_api` (lines 98-148):
empty input raises `EmbeddingProcessingError` before the request; a
transport failure propagates; a structurally bad response or a vector whose
length differs from `EMBEDDING_MODEL_DIMENSION` raises
`EmbeddingProcessingError`; otherwise the vector is returned.  (The
truncation of inputs over 20000 chars only shortens the text sent and does
not affect these outcomes.) -/
def attempt_embedding (text : String) (resp : ApiAttempt) : Except EmbError (List ℚ) :=
  if text.length = 0 then Except.error EmbError.processingError
  else
    match resp with
    | ApiAttempt.transport => Except.error EmbError.transportError
    | ApiAttempt.badStructure => Except.error EmbError.processingError
    | ApiAttempt.vector v =>
      if v.length = EMBEDDING_MODEL_DIMENSION then Except.ok v
      else Except.error EmbError.processingError

/-- The tenacity policy on `get_embedding_from_api`:
`retry_if_exception_type((requests.HTTPError, requests.Timeout,
requests.ConnectionError, EmbeddingProcessingError))` — note that
`EmbeddingProcessingError` (the validation error) is in the retried set. -/
def retryable : EmbError → Bool
  | EmbError.transportError => true
  | EmbError.processingError => true

/-- The tenacity loop with `stop=stop_after_attempt(EMBEDDING_API_MAX_RETRIES)`:
attempt, and while the raised error is of a retryable type and attempts
remain, retry (backoff delays do not affect the outcome and are not
modelled); returns the final outcome and the number of attempts made. -/
def retryAttempts (text : String) (responses : Nat → ApiAttempt) :
    Nat → Nat → (Except EmbError (List ℚ)) × Nat
  | _, 0 => (Except.error EmbError.processingError, 0)
  | start, fuel + 1 =>
    match attempt_embedding text (responses start) with
    | Except.ok v => (Except.ok v, 1)
    | Except.error e =>
      if retryable e && decide (0 < fuel) then
        let r := retryAttempts text responses (start + 1) fuel
        (r.1, r.2 + 1)
      else (Except.error e, 1)

/-- `get_embedding_from_api` as decorated: up to `EMBEDDING_API_MAX_RETRIES`
attempts against the provider's response stream. -/
def get_embedding_api_call (text : String) (responses : Nat → ApiAttempt) :
    (Except EmbError (List ℚ)) × Nat :=
  retryAttempts text responses 0 EMBEDDING_API_MAX_RETRIES

/-- The skip test of the block loop in `process_document_embeddings`
(line 206): an embedding is valid when it is a list of exactly
`EMBEDDING_MODEL_DIMENSION` entries. -/
def hasValidEmbedding (b : Bloco) : Bool :=
  match b.embedding with
  | some e => e.length = EMBEDDING_MODEL_DIMENSION
  | none => false

/-- The per-block loop of `process_document_embeddings` (lines 202-259) over
one document's blocks: valid-embedding blocks are skipped, blocks with empty
text or hash are skipped, otherwise the provider is called on the stripped
text; success stores the vector (the batched bulk write is modelled as
applied), failure leaves the block unchanged and increments the per-pass
failure counter, and the loop continues with the remaining blocks.  Returns
(blocks, successes, failures). -/
def processBlocosPass (api : String → Except EmbError (List ℚ)) :
    List Bloco → List Bloco × Nat × Nat
  | [] => ([], 0, 0)
  | b :: bs =>
    let rest := processBlocosPass api bs
    if hasValidEmbedding b then (b :: rest.1, rest.2.1, rest.2.2)
    else if pyStrip b.texto = "" || b.texto_hash = "" then (b :: rest.1, rest.2.1, rest.2.2)
    else
      match api (pyStrip b.texto) with
      | Except.ok v => ({ b with embedding := some v } :: rest.1, rest.2.1 + 1, rest.2.2)
      | Except.error _ => (b :: rest.1, rest.2.1, rest.2.2 + 1)

/-- A provider that always answers with a 512-dimensional vector. -/
def wrongDimResponses : Nat → ApiAttempt := fun _ => ApiAttempt.vector (List.replicate 512 0)

def isError : Except EmbError (List ℚ) → Bool
  | Except.error _ => true
  | Except.ok _ => false

set_option maxRecDepth 4000 in
/-- C4 counterexample: with a provider that always returns a 512-length
vector (1536 expected), `get_embedding_from_api` makes
`EMBEDDING_API_MAX_RETRIES = 5` attempts — the wrong-dimension validation
error is retried, not raised once — before failing. -/
theorem C4_retry_counterexample :
    (get_embedding_api_call "texto" wrongDimResponses).2 = EMBEDDING_API_MAX_RETRIES
    ∧ isError (get_embedding_api_call "texto" wrongDimResponses).1 = true
    ∧ EMBEDDING_API_MAX_RETRIES ≠ 1 := by
  refine ⟨by decide, by decide, by decide⟩

theorem retryAttempts_all_fail (text : String) (responses : Nat → ApiAttempt)
    (hall : ∀ i, attempt_embedding text (responses i) = Except.error EmbError.processingError) :
    ∀ (fuel start : Nat), 0 < fuel →
      retryAttempts text responses start fuel = (Except.error EmbError.processingError, fuel) := by
  intro fuel
  induction fuel with
  | zero => intro start h; exact absurd h (by omega)
  | succ n ih =>
    intro start _
    rw [retryAttempts, hall start]
    cases n with
    | zero => simp [retryable]
    | succ m =>
      simp only [retryable, Bool.true_and, decide_eq_true_eq]
      rw [if_pos (by omega : 0 < m + 1)]
      simp [ih (start + 1) (by omega)]

theorem processBlocosPass_append (api : String → Except EmbError (List ℚ))
    (xs ys : List Bloco) :
    processBlocosPass api (xs ++ ys) =
      ((processBlocosPass api xs).1 ++ (processBlocosPass api ys).1,
       (processBlocosPass api xs).2.1 + (processBlocosPass api ys).2.1,
       (processBlocosPass api xs).2.2 + (processBlocosPass api ys).2.2) := by
  induction xs with
  | nil => simp [processBlocosPass]
  | cons b bs ih =>
    by_cases h1 : hasValidEmbedding b = true
    · simp [processBlocosPass, h1, ih]
    · by_cases h2 : (pyStrip b.texto = "" || b.texto_hash = "") = true
      · simp [processBlocosPass, h1, h2, ih]
      · rcases hapi : api (pyStrip b.texto) with e | v
        · simp [processBlocosPass, h1, h2, hapi, ih]
          try omega
        · simp [processBlocosPass, h1, h2, hapi, ih]
          try omega

/-- C4 amended: a wrong-dimension response raises
`EmbeddingProcessingError`, which is in the decorator's retried exception
set, so the call is retried up to `EMBEDDING_API_MAX_RETRIES` attempts and
then fails; in the per-pass block loop the failing block's embedding stays
absent, the failure counter increments by one, and the remaining blocks of
the batch are still processed. -/
theorem C4_wrong_dimension_amended :
    (∀ (text : String) (responses : Nat → ApiAttempt),
      text.length ≠ 0 →
      (∀ i v, responses i = ApiAttempt.vector v → v.length ≠ EMBEDDING_MODEL_DIMENSION) →
      (∀ i, responses i ≠ ApiAttempt.transport) →
      get_embedding_api_call text responses =
        (Except.error EmbError.processingError, EMBEDDING_API_MAX_RETRIES))
    ∧ (∀ (api : String → Except EmbError (List ℚ)) (pre post : List Bloco) (b : Bloco),
      hasValidEmbedding b = false → pyStrip b.texto ≠ "" → b.texto_hash ≠ "" →
      api (pyStrip b.texto) = Except.error EmbError.processingError →
      processBlocosPass api (pre ++ b :: post) =
        ((processBlocosPass api pre).1 ++ b :: (processBlocosPass api post).1,
         (processBlocosPass api pre).2.1 + (processBlocosPass api post).2.1,
         (processBlocosPass api pre).2.2 + 1 + (processBlocosPass api post).2.2)) := by
  constructor
  · intro text responses htext hwrong htrans
    have hall : ∀ i, attempt_embedding text (responses i) =
        Except.error EmbError.processingError := by
      intro i
      rcases hr : responses i with _ | _ | v
      · exact absurd hr (htrans i)
      · simp [attempt_embedding, htext]
      · simp [attempt_embedding, htext, hwrong i v hr]
    exact retryAttempts_all_fail text responses hall EMBEDDING_API_MAX_RETRIES 0 (by decide)
  · intro api pre post b h1 h2 h3 hapi
    have hmid : processBlocosPass api (b :: post) =
        (b :: (processBlocosPass api post).1,
         (processBlocosPass api post).2.1, (processBlocosPass api post).2.2 + 1) := by
      simp [processBlocosPass, h1, h2, h3, hapi]
    rw [processBlocosPass_append, hmid]
    simp only [Prod.mk.injEq]
    refine ⟨trivial, trivial, by omega⟩

/-- Witness for C4's amended theorem: a constantly wrong-dimension provider
and a single-block batch whose provider call fails. -/
theorem C4_wrong_dimension_amended_witness :
    get_embedding_api_call "texto" wrongDimResponses =
      (Except.error EmbError.processingError, EMBEDDING_API_MAX_RETRIES)
    ∧ processBlocosPass (fun _ => Except.error EmbError.processingError)
        [Bloco.mk "t" 1 "h" none 0] = ([Bloco.mk "t" 1 "h" none 0], 0, 1) :=
  ⟨C4_wrong_dimension_amended.1 "texto" wrongDimResponses (by decide)
      (fun i v h => by
        simp only [wrongDimResponses] at h
        injection h with h2
        rw [← h2, List.length_replicate]
        decide)
      (fun i h => by rw [wrongDimResponses] at h; cases h),
    C4_wrong_dimension_amended.2 (fun _ => Except.error EmbError.processingError) [] []
      (Bloco.mk "t" 1 "h" none 0) (by decide) (by decide) (by decide) rfl⟩

/-- The observable data of one pass of `main_embedding_loop` (lines
327-361): the pending count read at the start of the attempt, the failure
counters reported by `process_document_embeddings`, and the pending count
re-read after processing. -/
structure PassData where
  pending_start : Nat
  falhas : Nat
  erros_db : Nat
  pending_end : Nat
  deriving DecidableEq, Repr

/-- `current_pending_count_main < previous_pending_count_main`, where the
initial previous count is `float('inf')` (modelled as `none`). -/
def progressMade (prev : Option Nat) (pend : Nat) : Bool :=
  match prev with
  | none => true
  | some p => pend < p

/-- The stagnation-counter update of one pass: reset to 0 on progress,
increment when there was no progress and generation or storage failures
occurred, and leave unchanged on a no-progress pass without failures. -/
def stepCounter (prev : Option Nat) (cnt : Nat) (d : PassData) : Nat :=
  if progressMade prev d.pending_end then 0
  else if 0 < d.falhas || 0 < d.erros_db then cnt + 1
  else cnt

/-- The attempt loop of `main_embedding_loop`: for up to `fuel` further
attempts, read the pending count (zero means success and stop), run a pass,
re-read the count (zero means success and stop), update the stagnation
counter and abort with failure when it reaches
`EMBEDDING_MAIN_LOOP_NO_PROGRESS_THRESHOLD`.  Returns the success flag and
the number of attempts executed. -/
def mainLoopGo (env : Nat → PassData) : Nat → Nat → Option Nat → Nat → Bool × Nat
  | 0, _, _, _ => (false, 0)
  | fuel + 1, i, prev, cnt =>
    let d := env i
    if d.pending_start = 0 then (true, 1)
    else if d.pending_end = 0 then (true, 1)
    else
      let cnt2 := stepCounter prev cnt d
      if EMBEDDING_MAIN_LOOP_NO_PROGRESS_THRESHOLD ≤ cnt2 then (false, 1)
      else
        let r := mainLoopGo env fuel (i + 1) (some d.pending_end) cnt2
        (r.1, r.2 + 1)

/-- `main_embedding_loop` from `src/backend/embedding_generation.py`,
starting with `previous = inf` and a zero stagnation counter, for at most
`EMBEDDING_MAIN_LOOP_MAX_ATTEMPTS` attempts. -/
def main_embedding_loop (env : Nat → PassData) : Bool × Nat :=
  mainLoopGo env EMBEDDING_MAIN_LOOP_MAX_ATTEMPTS 0 none 0

/-- C9: the sync loop always terminates within
`EMBEDDING_MAIN_LOOP_MAX_ATTEMPTS` passes; it stops with success as soon as
a pass observes a pending count of zero; a no-progress pass without
failures leaves the stagnation counter unchanged; and three chained
no-progress-with-failures passes abort the loop with failure after exactly
those three passes. -/
theorem C9_sync_loop_spec :
    (∀ (env : Nat → PassData) (fuel i : Nat) (prev : Option Nat) (cnt : Nat),
      (mainLoopGo env fuel i prev cnt).2 ≤ fuel)
    ∧ (∀ (env : Nat → PassData), (main_embedding_loop env).2 ≤ EMBEDDING_MAIN_LOOP_MAX_ATTEMPTS)
    ∧ (∀ (env : Nat → PassData) (fuel i : Nat) (prev : Option Nat) (cnt : Nat),
      0 < fuel → ((env i).pending_start = 0 ∨ (env i).pending_end = 0) →
      mainLoopGo env fuel i prev cnt = (true, 1))
    ∧ (∀ (prev : Option Nat) (cnt : Nat) (d : PassData),
      progressMade prev d.pending_end = false → d.falhas = 0 → d.erros_db = 0 →
      stepCounter prev cnt d = cnt)
    ∧ (∀ (env : Nat → PassData) (fuel i p : Nat),
      3 ≤ fuel →
      (env i).pending_start ≠ 0 → (env i).pending_end ≠ 0 →
      ¬ (env i).pending_end < p → (0 < (env i).falhas ∨ 0 < (env i).erros_db) →
      (env (i + 1)).pending_start ≠ 0 → (env (i + 1)).pending_end ≠ 0 →
      ¬ (env (i + 1)).pending_end < (env i).pending_end →
      (0 < (env (i + 1)).falhas ∨ 0 < (env (i + 1)).erros_db) →
      (env (i + 2)).pending_start ≠ 0 → (env (i + 2)).pending_end ≠ 0 →
      ¬ (env (i + 2)).pending_end < (env (i + 1)).pending_end →
      (0 < (env (i + 2)).falhas ∨ 0 < (env (i + 2)).erros_db) →
      mainLoopGo env fuel i (some p) 0 = (false, 3)) := by
  have hbound : ∀ (env : Nat → PassData) (fuel i : Nat) (prev : Option Nat) (cnt : Nat),
      (mainLoopGo env fuel i prev cnt).2 ≤ fuel := by
    intro env fuel
    induction fuel with
    | zero => intro i prev cnt; simp [mainLoopGo]
    | succ n ih =>
      intro i prev cnt
      rw [mainLoopGo]
      by_cases h1 : (env i).pending_start = 0
      · simp [h1]
      · by_cases h2 : (env i).pending_end = 0
        · simp [h1, h2]
        · by_cases h3 : EMBEDDING_MAIN_LOOP_NO_PROGRESS_THRESHOLD ≤
            stepCounter prev cnt (env i)
          · simp [h1, h2, h3]
          · simp only [h1, h2, h3, if_neg, if_false, ite_false]
            have := ih (i + 1) (some (env i).pending_end) (stepCounter prev cnt (env i))
            omega
  refine ⟨hbound, fun env => hbound env _ 0 none 0, ?_, ?_, ?_⟩
  · intro env fuel i prev cnt hf hz
    cases fuel with
    | zero => omega
    | succ n =>
      rcases hz with hz | hz
      · simp [mainLoopGo, hz]
      · by_cases h1 : (env i).pending_start = 0 <;> simp [mainLoopGo, h1, hz]
  · intro prev cnt d hpm hf he
    simp [stepCounter, hpm, hf, he]
  · intro env fuel i p hfuel h1s h1e h1p h1f h2s h2e h2p h2f h3s h3e h3p h3f
    obtain ⟨m, rfl⟩ : ∃ m, fuel = m + 1 + 1 + 1 := ⟨fuel - 3, by omega⟩
    have hc1 : stepCounter (some p) 0 (env i) = 1 := by
      simp [stepCounter, progressMade, h1p, h1f]
    have hc2 : stepCounter (some (env i).pending_end) 1 (env (i + 1)) = 2 := by
      simp [stepCounter, progressMade, h2p, h2f]
    have hc3 : stepCounter (some (env (i + 1)).pending_end) 2 (env (i + 1 + 1)) = 3 := by
      have h3p2 : ¬ (env (i + 1 + 1)).pending_end < (env (i + 1)).pending_end := h3p
      have h3f2 : 0 < (env (i + 1 + 1)).falhas ∨ 0 < (env (i + 1 + 1)).erros_db := h3f
      simp [stepCounter, progressMade, h3p2, h3f2]
    have h3s2 : (env (i + 1 + 1)).pending_start ≠ 0 := h3s
    have h3e2 : (env (i + 1 + 1)).pending_end ≠ 0 := h3e
    simp [mainLoopGo, h1s, h1e, h2s, h2e, h3s2, h3e2, hc1, hc2, hc3,
      EMBEDDING_MAIN_LOOP_NO_PROGRESS_THRESHOLD]

/-- Witness for C9 at two concrete environments: an immediately-empty
pending set, and a permanently stuck pending set with failures. -/
theorem C9_sync_loop_spec_witness :
    mainLoopGo (fun _ => PassData.mk 0 0 0 0) 10 0 none 0 = (true, 1)
    ∧ mainLoopGo (fun _ => PassData.mk 5 1 0 5) 3 0 (some 5) 0 = (false, 3) :=
  ⟨C9_sync_loop_spec.2.2.1 (fun _ => PassData.mk 0 0 0 0) 10 0 none 0 (by decide) (Or.inl rfl),
   C9_sync_loop_spec.2.2.2.2 (fun _ => PassData.mk 5 1 0 5) 3 0 5 (by decide)
     (by decide) (by decide) (by decide) (Or.inl (by decide))
     (by decide) (by decide) (by decide) (Or.inl (by decide))
     (by decide) (by decide) (by decide) (Or.inl (by decide))⟩

end Sync

/-! ## BM25 textual search (`_executar_busca_textual`, `projeto/src/chatbot.py`
lines 235-251)

The BM25Okapi scoring of the `rank_bm25` library is embedded with its
constants `k1 = 1.5`, `b = 0.75`; its IDF table (log-based, with epsilon
flooring) is abstracted as a function `idf : String → ℚ` since the claims
settled here do not depend on its values, only on the term-frequency factor.
`np.argsort` with its default sort kind guarantees only an ascending
permutation of the indices, not stability, so it is abstracted as any
function satisfying `ValidArgsort`; the theorems about the search hold for
every such function.  On arrays below numpy's introsort cutoff (16
elements) the default sort degenerates to insertion sort, which is the
stable `argsortAsc` below — that instantiation is numpy's exact behaviour
on the counterexample's two-element corpus.  `[-top_k:][::-1]` and the
positive-score filter follow the source line by line. -/
namespace Bm25

open Chatbot (RetrievalDoc)

def k1 : ℚ := 3 / 2

def bParam : ℚ := 3 / 4

/-- Average document length of the tokenised corpus. -/
def avgdl (corpus : List (List String)) : ℚ :=
  ((corpus.map (fun d => (d.length : ℚ))).sum) / (corpus.length : ℚ)

/-- `BM25Okapi.get_scores` for one document: for each query term `t`,
`idf[t] * f(t,d)*(k1+1) / (f(t,d) + k1*(1 - b + b*|d|/avgdl))`. -/
def bm25Score (idf : String → ℚ) (corpus : List (List String)) (query : List String)
    (d : List String) : ℚ :=
  (query.map (fun t =>
    idf t * (((d.count t : ℚ)) * (k1 + 1)) /
      ((d.count t : ℚ) + k1 * (1 - bParam + bParam * (d.length : ℚ) / avgdl corpus)))).sum

def get_scores (idf : String → ℚ) (corpus : List (List String)) (query : List String) :
    List ℚ :=
  corpus.map (fun d => bm25Score idf corpus query d)

/-- `doc_scores[i]` (out-of-range reads do not occur in the source; they
default to 0 here). -/
def nthScore : List ℚ → Nat → ℚ
  | [], _ => 0
  | x :: _, 0 => x
  | _ :: xs, n + 1 => nthScore xs n

/-- `doc_store[i]` as a partial lookup. -/
def nthDoc? : List RetrievalDoc → Nat → Option RetrievalDoc
  | [], _ => none
  | d :: _, 0 => some d
  | _ :: ds, n + 1 => nthDoc? ds n

/-- The ordering key of a stable ascending argsort: score first, original
index as tie-break. -/
def argsortRel (s : List ℚ) (i j : Nat) : Prop :=
  nthScore s i < nthScore s j ∨ (nthScore s i = nthScore s j ∧ i ≤ j)

instance (s : List ℚ) : DecidableRel (argsortRel s) := fun i j =>
  decidable_of_iff (nthScore s i < nthScore s j ∨ (nthScore s i = nthScore s j ∧ i ≤ j))
    Iff.rfl

instance (s : List ℚ) : IsTrans Nat (argsortRel s) := by
  refine ⟨fun a c e hac hce => ?_⟩
  rcases hac with h | ⟨h, h2⟩ <;> rcases hce with h3 | ⟨h3, h4⟩
  · exact Or.inl (lt_trans h h3)
  · exact Or.inl (h3 ▸ h)
  · exact Or.inl (h ▸ h3)
  · exact Or.inr ⟨h.trans h3, h2.trans h4⟩

instance (s : List ℚ) : IsTotal Nat (argsortRel s) := by
  refine ⟨fun i j => ?_⟩
  rcases lt_trichotomy (nthScore s i) (nthScore s j) with h | h | h
  · exact Or.inl (Or.inl h)
  · rcases Nat.le_total i j with h2 | h2
    · exact Or.inl (Or.inr ⟨h, h2⟩)
    · exact Or.inr (Or.inr ⟨h.symm, h2⟩)
  · exact Or.inr (Or.inl h)

/-- The stable ascending argsort (indices sorted by the lexicographic key
(score, original index)).  This is what numpy's argsort computes below its
16-element insertion-sort cutoff; for larger arrays numpy's default
quicksort promises only `ValidArgsort`. -/
def argsortAsc (s : List ℚ) : List Nat :=
  (List.range s.length).insertionSort (argsortRel s)

/-- What `np.argsort(doc_scores)` guarantees for every array regardless of
sort kind: the result is a permutation of the indices `0..n-1` along which
the scores ascend.  The default kind is not stable, so the relative order
of tied indices is unspecified; any function satisfying this predicate is
an admissible behaviour. -/
def ValidArgsort (argsort : List ℚ → List Nat) : Prop :=
  ∀ s : List ℚ, List.Perm (argsort s) (List.range s.length)
    ∧ (argsort s).Pairwise (fun i j => nthScore s i ≤ nthScore s j)

theorem argsortAsc_valid : ValidArgsort argsortAsc := by
  intro s
  constructor
  · exact List.perm_insertionSort (argsortRel s) (List.range s.length)
  · refine (List.sorted_insertionSort (argsortRel s) (List.range s.length)).imp ?_
    intro a c hac
    rcases hac with h | ⟨h, _⟩
    · exact le_of_lt h
    · exact le_of_eq h

/-- `np.argsort(doc_scores)[-top_k:][::-1]` for a given argsort
implementation — note Python's `[-0:]` slices the whole array. -/
def topIndices (argsort : List ℚ → List Nat) (s : List ℚ) (top_k : Nat) : List Nat :=
  if top_k = 0 then (argsort s).reverse
  else ((argsort s).drop (s.length - top_k)).reverse

/-- `_executar_busca_textual` for a given argsort implementation: score,
take the `top_k` best indices, skip candidates with non-positive scores,
and return each remaining candidate's stored record with its BM25 score
filled in. -/
def executar_busca_textual (argsort : List ℚ → List Nat) (idf : String → ℚ)
    (corpus : List (List String)) (doc_store : List RetrievalDoc)
    (query : List String) (top_k : Nat) : List RetrievalDoc :=
  (topIndices argsort (get_scores idf corpus query) top_k).filterMap (fun i =>
    if nthScore (get_scores idf corpus query) i ≤ 0 then none
    else (nthDoc? doc_store i).map
      (fun doc => { doc with score := nthScore (get_scores idf corpus query) i }))

theorem nthDoc?_lt (ds : List RetrievalDoc) :
    ∀ (i : Nat) (d : RetrievalDoc), nthDoc? ds i = some d → i < ds.length := by
  induction ds with
  | nil => intro i d h; simp [nthDoc?] at h
  | cons x xs ih =>
    intro i d h
    cases i with
    | zero => simp
    | succ n =>
      have := ih n d h
      simp only [List.length_cons]
      omega

theorem nthScore_all_zero (s : List ℚ) (h : ∀ x ∈ s, x = 0) :
    ∀ i, nthScore s i = 0 := by
  induction s with
  | nil => intro i; cases i <;> rfl
  | cons x xs ih =>
    intro i
    cases i with
    | zero => exact h x (List.mem_cons_self x xs)
    | succ n => exact ih (fun y hy => h y (List.mem_cons_of_mem _ hy)) n

theorem get_scores_zero (idf : String → ℚ) (corpus : List (List String))
    (query : List String) (h : ∀ d ∈ corpus, ∀ t ∈ query, d.count t = 0) :
    ∀ x ∈ get_scores idf corpus query, x = 0 := by
  intro x hx
  rcases List.mem_map.mp hx with ⟨d, hd, rfl⟩
  apply List.sum_eq_zero
  intro y hy
  rcases List.mem_map.mp hy with ⟨t, ht, rfl⟩
  rw [h d hd t ht]
  norm_num

theorem busca_filter_some (idf : String → ℚ) (corpus : List (List String))
    (doc_store : List RetrievalDoc) (query : List String) (i : Nat) (d : RetrievalDoc)
    (hf : (if nthScore (get_scores idf corpus query) i ≤ 0 then none
           else (nthDoc? doc_store i).map
             (fun doc => { doc with score := nthScore (get_scores idf corpus query) i }))
          = some d) :
    0 < nthScore (get_scores idf corpus query) i
    ∧ d.score = nthScore (get_scores idf corpus query) i
    ∧ ∃ doc, nthDoc? doc_store i = some doc
        ∧ d = { doc with score := nthScore (get_scores idf corpus query) i } := by
  by_cases hle : nthScore (get_scores idf corpus query) i ≤ 0
  · rw [if_pos hle] at hf; cases hf
  · rw [if_neg hle] at hf
    rcases hdoc : nthDoc? doc_store i with _ | doc
    · rw [hdoc] at hf; cases hf
    · rw [hdoc] at hf
      injection hf with hf
      exact ⟨lt_of_not_le hle, by rw [← hf], doc, rfl, hf.symm⟩

theorem topIndices_pairwise (argsort : List ℚ → List Nat) (hv : ValidArgsort argsort)
    (s : List ℚ) (top_k : Nat) :
    (topIndices argsort s top_k).Pairwise (fun i j => nthScore s j ≤ nthScore s i) := by
  have hbase : (argsort s).Pairwise (fun i j => nthScore s i ≤ nthScore s j) := (hv s).2
  have himp : ∀ l : List Nat, l.Pairwise (fun i j => nthScore s i ≤ nthScore s j) →
      l.reverse.Pairwise (fun i j => nthScore s j ≤ nthScore s i) := by
    intro l hl
    rw [List.pairwise_reverse]
    exact hl
  rw [topIndices]
  by_cases hk : top_k = 0
  · rw [if_pos hk]
    exact himp _ hbase
  · rw [if_neg hk]
    exact himp _ (hbase.sublist (List.drop_sublist _ _))

end Bm25

/-! ## Oversized-chunk re-splitting (`process_documents_in_batches`,
`projeto/src/etl.py` lines 228-244)

The tokenizer (`tiktoken`) and the token-length-based
`RecursiveCharacterTextSplitter` configured with `chunk_size = max_tokens`
and `length_function = token count` are external libraries; they are
abstracted as functions, the splitter's configured contract (every produced
piece fits in `max_tokens` tokens) appearing as a hypothesis. -/
namespace Etl

/-- The `final_chunks` loop: a chunk whose token count exceeds `max_tokens`
is replaced by the token splitter's pieces, all others are kept; the
resulting list is exactly what is embedded and upserted. -/
def build_final_chunks (tokenCount : String → Nat) (token_splitter : String → List String)
    (max_tokens : Nat) : List String → List String
  | [] => []
  | c :: cs =>
    (if max_tokens < tokenCount c then token_splitter c else [c])
      ++ build_final_chunks tokenCount token_splitter max_tokens cs

/-- C10: provided the token splitter honours its configured bound on the
chunks it is asked to re-split, every chunk that reaches embedding and
storage fits within the model's token limit. -/
theorem C10_chunks_within_token_limit
    (tokenCount : String → Nat) (token_splitter : String → List String) (max_tokens : Nat)
    (hsplit : ∀ c, max_tokens < tokenCount c →
      ∀ s ∈ token_splitter c, tokenCount s ≤ max_tokens) :
    ∀ (initial_chunks : List String),
      ∀ s ∈ build_final_chunks tokenCount token_splitter max_tokens initial_chunks,
        tokenCount s ≤ max_tokens := by
  intro chunks
  induction chunks with
  | nil => simp [build_final_chunks]
  | cons c cs ih =>
    intro s hs
    rw [build_final_chunks] at hs
    rcases List.mem_append.mp hs with h | h
    · by_cases hc : max_tokens < tokenCount c
      · exact hsplit c hc s (by simpa [hc] using h)
      · have hsc : s = c := by simpa [hc] using h
        rw [hsc]
        omega
    · exact ih s h

/-- Witness for C10 at a concrete chunk list with a character-count
tokenizer. -/
theorem C10_chunks_within_token_limit_witness :
    ("ab" ∈ build_final_chunks String.length (fun _ => []) 3 ["ab", "abcdefgh"])
    ∧ String.length "ab" ≤ 3 :=
  ⟨by decide,
   C10_chunks_within_token_limit String.length (fun _ => []) 3
     (fun c hc s hs => absurd hs (List.not_mem_nil s)) ["ab", "abcdefgh"] "ab" (by decide)⟩

end Etl
